import Mathlib

/-!
Verification of the remote processor framework (Documentation/remoteproc.h)
against its specification.  The repository ships only the design document;
the executable core (registry, lifecycle controller, firmware parser and
resource negotiator) is modelled here from the specification's words, over
byte buffers represented as lists of naturals (each byte < 256).
-/

/-- Little-endian decoding of a byte list into a natural number. -/
def decodeLE : List Nat → Nat
  | [] => 0
  | b :: bs => b + 256 * decodeLE bs

/-- Little-endian encoding of a natural number into `k` bytes. -/
def encodeLE : Nat → Nat → List Nat
  | 0, _ => []
  | k + 1, n => n % 256 :: encodeLE k (n / 256)

theorem encodeLE_decodeLE (l : List Nat) (h : ∀ x ∈ l, x < 256) :
    encodeLE l.length (decodeLE l) = l := by
  induction l with
  | nil => rfl
  | cons b bs ih =>
    have hb : b < 256 := h b (List.mem_cons_self b bs)
    have hmod : (b + 256 * decodeLE bs) % 256 = b := by
      rw [Nat.add_mul_mod_self_left, Nat.mod_eq_of_lt hb]
    have hdiv : (b + 256 * decodeLE bs) / 256 = decodeLE bs := by
      rw [Nat.add_mul_div_left b _ (by norm_num : 0 < 256),
        Nat.div_eq_of_lt hb, Nat.zero_add]
    simp only [List.length_cons, encodeLE, decodeLE, hmod, hdiv, List.cons.injEq, true_and]
    exact ih (fun x hx => h x (List.mem_cons_of_mem b hx))

/-- Read exactly `k` bytes from the front of a buffer, or fail if fewer remain. -/
def readN (k : Nat) (l : List Nat) : Option (List Nat × List Nat) :=
  if k ≤ l.length then some (l.take k, l.drop k) else none

theorem readN_eq_some {k : Nat} {l a b : List Nat} (h : readN k l = some (a, b)) :
    a = l.take k ∧ b = l.drop k ∧ a.length = k ∧ k ≤ l.length := by
  unfold readN at h
  split at h
  · rename_i hk
    injection h with h'
    injection h' with h1 h2
    exact ⟨h1.symm, h2.symm, by rw [← h1]; exact List.length_take_of_le hk, hk⟩
  · exact absurd h (by simp)

theorem readN_none {k : Nat} {l : List Nat} (h : l.length < k) : readN k l = none := by
  unfold readN
  split
  · omega
  · rfl

deriving instance DecidableEq for Except

/-- The error taxonomy of the framework (spec §7). -/
inductive RpErr where
  | InvalidFormat
  | TruncatedImage
  | MalformedResourceSection
  | ResourceUnavailable (name : List Nat)
  | UnsupportedResource
  | StartFailed
  | StopFailed
  | DuplicateName
  | UnknownName
  | InUse
  | ReleaseUnderflow
  deriving DecidableEq

/-- A firmware section: type tag, device address, raw content (struct section). -/
structure fw_section where
  type : Nat
  da : Nat
  content : List Nat
  deriving DecidableEq

/-- A parsed firmware image: version, textual header, ordered sections. -/
structure fw_image where
  version : Nat
  header : List Nat
  sections : List fw_section
  deriving DecidableEq

/-- The 4-byte "RPRC" magic. -/
def magicBytes : List Nat := [82, 80, 82, 67]

/-- Modelled from the spec: the section loop of the firmware parser (§4.1),
whose implementation is absent from the repository. Repeatedly reads a section
header (type, da, len) and `len` content bytes until the buffer is exhausted;
a declared length past the end of the buffer fails with TruncatedImage.
`fuel` bounds the recursion; any fuel at least the buffer length is enough. -/
def parseSections (fuel : Nat) (l : List Nat) : Except RpErr (List fw_section) :=
  if l.isEmpty then Except.ok []
  else
    match fuel with
    | 0 => Except.error RpErr.TruncatedImage
    | f + 1 =>
      match readN 4 l with
      | none => Except.error RpErr.TruncatedImage
      | some (tb, r1) =>
        match readN 8 r1 with
        | none => Except.error RpErr.TruncatedImage
        | some (db, r2) =>
          match readN 4 r2 with
          | none => Except.error RpErr.TruncatedImage
          | some (lb, r3) =>
            match readN (decodeLE lb) r3 with
            | none => Except.error RpErr.TruncatedImage
            | some (cb, r4) =>
              match parseSections f r4 with
              | Except.error e => Except.error e
              | Except.ok rest =>
                Except.ok ({ type := decodeLE tb, da := decodeLE db, content := cb } :: rest)

/-- Modelled from the spec: the firmware parser entry point (§4.1), whose
implementation is absent from the repository. Validates the "RPRC" magic,
reads version and header, then parses the sections. -/
def parseImage (buf : List Nat) : Except RpErr fw_image :=
  match readN 4 buf with
  | none => Except.error RpErr.TruncatedImage
  | some (m, r0) =>
    if m = magicBytes then
      match readN 4 r0 with
      | none => Except.error RpErr.TruncatedImage
      | some (vb, r1) =>
        match readN 4 r1 with
        | none => Except.error RpErr.TruncatedImage
        | some (hlb, r2) =>
          match readN (decodeLE hlb) r2 with
          | none => Except.error RpErr.TruncatedImage
          | some (hb, r3) =>
            match parseSections r3.length r3 with
            | Except.error e => Except.error e
            | Except.ok secs => Except.ok { version := decodeLE vb, header := hb, sections := secs }
    else Except.error RpErr.InvalidFormat

/-- Serialization of one section: type (4 bytes), da (8), len (4), content. -/
def serializeSection (s : fw_section) : List Nat :=
  encodeLE 4 s.type ++ encodeLE 8 s.da ++ encodeLE 4 s.content.length ++ s.content

def serializeSections : List fw_section → List Nat
  | [] => []
  | s :: rest => serializeSection s ++ serializeSections rest

/-- Serialization of a whole image, inverse of `parseImage` on well-formed input. -/
def serializeImage (img : fw_image) : List Nat :=
  magicBytes ++ encodeLE 4 img.version ++ encodeLE 4 img.header.length ++
    img.header ++ serializeSections img.sections

theorem parseSections_roundtrip :
    ∀ (fuel : Nat) (l : List Nat) (secs : List fw_section),
      (∀ x ∈ l, x < 256) → parseSections fuel l = Except.ok secs →
      serializeSections secs = l := by
  intro fuel
  induction fuel with
  | zero =>
    intro l secs _ h
    unfold parseSections at h
    split at h
    · rename_i hl
      injection h with h
      subst h
      simp [List.isEmpty_iff] at hl
      simp [hl, serializeSections]
    · exact absurd h (by simp)
  | succ f ih =>
    intro l secs hbytes h
    unfold parseSections at h
    split at h
    · rename_i hl
      injection h with h
      subst h
      simp [List.isEmpty_iff] at hl
      simp [hl, serializeSections]
    · rename_i hl
      dsimp only at h
      cases h1 : readN 4 l with
      | none => rw [h1] at h; exact absurd h (by simp)
      | some p1 =>
        obtain ⟨tb, r1⟩ := p1
        rw [h1] at h
        dsimp only at h
        obtain ⟨htb, hr1, htblen, -⟩ := readN_eq_some h1
        cases h2 : readN 8 r1 with
        | none => rw [h2] at h; exact absurd h (by simp)
        | some p2 =>
          obtain ⟨db, r2⟩ := p2
          rw [h2] at h
          dsimp only at h
          obtain ⟨hdb, hr2, hdblen, -⟩ := readN_eq_some h2
          cases h3 : readN 4 r2 with
          | none => rw [h3] at h; exact absurd h (by simp)
          | some p3 =>
            obtain ⟨lb, r3⟩ := p3
            rw [h3] at h
            dsimp only at h
            obtain ⟨hlb, hr3, hlblen, -⟩ := readN_eq_some h3
            cases h4 : readN (decodeLE lb) r3 with
            | none => rw [h4] at h; exact absurd h (by simp)
            | some p4 =>
              obtain ⟨cb, r4⟩ := p4
              rw [h4] at h
              dsimp only at h
              obtain ⟨hcb, hr4, hcblen, -⟩ := readN_eq_some h4
              cases h5 : parseSections f r4 with
              | error e => rw [h5] at h; exact absurd h (by simp)
              | ok rest =>
                rw [h5] at h
                dsimp only at h
                injection h with h
                subst h
                have hsub1 : ∀ x ∈ r1, x < 256 := fun x hx =>
                  List.drop_subset 4 l (hr1 ▸ hx) |> hbytes x
                have hsub2 : ∀ x ∈ r2, x < 256 := fun x hx =>
                  List.drop_subset 8 r1 (hr2 ▸ hx) |> hsub1 x
                have hsub3 : ∀ x ∈ r3, x < 256 := fun x hx =>
                  List.drop_subset 4 r2 (hr3 ▸ hx) |> hsub2 x
                have hsub4 : ∀ x ∈ r4, x < 256 := fun x hx =>
                  List.drop_subset (decodeLE lb) r3 (hr4 ▸ hx) |> hsub3 x
                have htb256 : ∀ x ∈ tb, x < 256 := fun x hx =>
                  List.take_subset 4 l (htb ▸ hx) |> hbytes x
                have hdb256 : ∀ x ∈ db, x < 256 := fun x hx =>
                  List.take_subset 8 r1 (hdb ▸ hx) |> hsub1 x
                have hlb256 : ∀ x ∈ lb, x < 256 := fun x hx =>
                  List.take_subset 4 r2 (hlb ▸ hx) |> hsub2 x
                have hrest : serializeSections rest = r4 := ih r4 rest hsub4 h5
                have etb : encodeLE 4 (decodeLE tb) = tb := by
                  rw [← htblen]; exact encodeLE_decodeLE tb htb256
                have edb : encodeLE 8 (decodeLE db) = db := by
                  rw [← hdblen]; exact encodeLE_decodeLE db hdb256
                have elb : encodeLE 4 cb.length = lb := by
                  rw [hcblen, ← hlblen]; exact encodeLE_decodeLE lb hlb256
                have hl1 : tb ++ r1 = l := by
                  rw [htb, hr1]; exact List.take_append_drop 4 l
                have hl2 : db ++ r2 = r1 := by
                  rw [hdb, hr2]; exact List.take_append_drop 8 r1
                have hl3 : lb ++ r3 = r2 := by
                  rw [hlb, hr3]; exact List.take_append_drop 4 r2
                have hl4 : cb ++ r4 = r3 := by
                  rw [hcb, hr4]; exact List.take_append_drop (decodeLE lb) r3
                simp only [serializeSections, serializeSection, etb, edb, elb, hrest]
                rw [← hl1, ← hl2, ← hl3, ← hl4]
                simp [List.append_assoc]

/-- A resource entry (struct fw_resource): type, da, pa, len, flags, 48-byte name. -/
structure fw_resource where
  type : Nat
  da : Nat
  pa : Nat
  len : Nat
  flags : Nat
  name : List Nat
  deriving DecidableEq

/-- Section type tag of resource sections. Modelled from the spec: the
numeric tags of section types are not given in the repository. -/
def FW_RESOURCE : Nat := 0

/-- Resource type of one-way trace-buffer announcements (RSC_TRACE). -/
def RSC_TRACE : Nat := 0

/-- Resource type of one-way boot-address announcements (RSC_BOOTADDR). -/
def RSC_BOOTADDR : Nat := 1

/-- Modelled from the spec: the representative two-way allocation-request
resource type (the allocation protocol is described but not implemented in
the repository). -/
def RSC_DEVMEM : Nat := 2

/-- Fixed size of a packed resource entry: 4 + 8 + 8 + 4 + 4 + 48 bytes. -/
def RSC_ENTRY_SIZE : Nat := 76

/-- Decode one 76-byte chunk into a resource entry. -/
def parseResEntry (l : List Nat) : fw_resource :=
  { type := decodeLE (l.take 4)
  , da := decodeLE ((l.drop 4).take 8)
  , pa := decodeLE ((l.drop 12).take 8)
  , len := decodeLE ((l.drop 20).take 4)
  , flags := decodeLE ((l.drop 24).take 4)
  , name := (l.drop 28).take 48 }

/-- Split a buffer into consecutive 76-byte entries. `fuel` bounds the
recursion; any fuel at least the buffer length is enough. -/
def parseResChunks (fuel : Nat) (l : List Nat) : List fw_resource :=
  if l.isEmpty then []
  else
    match fuel with
    | 0 => []
    | f + 1 => parseResEntry (l.take RSC_ENTRY_SIZE) :: parseResChunks f (l.drop RSC_ENTRY_SIZE)

/-- Modelled from the spec: decoding of a resource section (§4.1), whose
implementation is absent from the repository. A resource section is a packed
array of fixed-size entries; a length that is not a multiple of the entry
size fails with MalformedResourceSection. -/
def parseResEntries (l : List Nat) : Except RpErr (List fw_resource) :=
  if l.length % RSC_ENTRY_SIZE = 0 then Except.ok (parseResChunks l.length l)
  else Except.error RpErr.MalformedResourceSection

/-- Modelled from the spec: concatenation, in section order, of the entries of
all resource sections of an image (§4.2), whose implementation is absent from
the repository. -/
def extractResources : List fw_section → Except RpErr (List fw_resource)
  | [] => Except.ok []
  | s :: rest =>
    if s.type = FW_RESOURCE then
      match parseResEntries s.content with
      | Except.error e => Except.error e
      | Except.ok es =>
        match extractResources rest with
        | Except.error e => Except.error e
        | Except.ok more => Except.ok (es ++ more)
    else extractResources rest

/-- The Boot Context produced by negotiation: boot address (if announced) and
trace buffer descriptors (device address, size). -/
structure BootCtx where
  boot : Option Nat
  traces : List (Nat × Nat)
  deriving DecidableEq

def initCtx : BootCtx := { boot := none, traces := [] }

/-- The environment of one processor: its firmware bytes, the host allocator
for two-way resource requests, the strict-mode flag, the caller-supplied
default boot address, and the outcomes of the platform start/stop capability. -/
structure RpEnv where
  fwBytes : List Nat
  alloc : List Nat → Option Nat
  strict : Bool
  defaultBoot : Option Nat
  startOk : Bool
  stopOk : Bool

/-- Modelled from the spec: resolution of a single resource entry (§4.2),
whose implementation is absent from the repository. TRACE and BOOTADDR are
one-way announcements (first BOOTADDR wins); allocation-request entries get
the allocated identifier written back into their pa field, or fail with
ResourceUnavailable; unknown types are ignored unless strict mode is set. -/
def negoStep (env : RpEnv) (ctx : BootCtx) (e : fw_resource) :
    Except RpErr (BootCtx × fw_resource) :=
  if e.type = RSC_TRACE then
    Except.ok ({ ctx with traces := ctx.traces ++ [(e.da, e.len)] }, e)
  else if e.type = RSC_BOOTADDR then
    match ctx.boot with
    | some _ => Except.ok (ctx, e)
    | none => Except.ok ({ ctx with boot := some e.da }, e)
  else if e.type = RSC_DEVMEM then
    match env.alloc e.name with
    | some id => Except.ok (ctx, { e with pa := id })
    | none => Except.error (RpErr.ResourceUnavailable e.name)
  else if env.strict then Except.error RpErr.UnsupportedResource
  else Except.ok (ctx, e)

/-- Modelled from the spec: the resource negotiator (§4.2), whose
implementation is absent from the repository. Resolves the entries in order,
threading the Boot Context, and returns the written-back entries. -/
def negotiate (env : RpEnv) (ctx : BootCtx) :
    List fw_resource → Except RpErr (List fw_resource × BootCtx)
  | [] => Except.ok ([], ctx)
  | e :: rest =>
    match negoStep env ctx e with
    | Except.error err => Except.error err
    | Except.ok (ctx1, e1) =>
      match negotiate env ctx1 rest with
      | Except.error err => Except.error err
      | Except.ok (out, ctx2) => Except.ok (e1 :: out, ctx2)

/-- The boot address handed to the start capability: the negotiated one if a
BOOTADDR entry announced it, else the caller-supplied default. -/
def effBoot (ctx : BootCtx) (dflt : Option Nat) : Option Nat :=
  match ctx.boot with
  | some b => some b
  | none => dflt

/-- A da-to-pa memory mapping entry (struct rproc_mem_entry). -/
structure rproc_mem_entry where
  da : Nat
  pa : Nat
  len : Nat
  deriving DecidableEq

/-- Lifecycle states of a processor (spec §4.4). -/
inductive RState where
  | Offline
  | Loading
  | Negotiating
  | Booting
  | Running
  | Stopping
  deriving DecidableEq

/-- A processor descriptor (struct rproc): name, firmware name, memory map
table, live reference count and lifecycle state. The capability handle, the
device and the owning module are external collaborators and carry no state
observed by this model. -/
structure rproc where
  name : String
  firmware : String
  memMaps : List rproc_mem_entry
  count : Nat
  state : RState
  deriving DecidableEq

/-- Observable calls made to the external collaborators during one lifecycle
operation: applying the memory map table, and the start/stop capability. -/
inductive LcEvent where
  | ApplyMap (maps : List rproc_mem_entry)
  | Start (bootaddr : Option Nat)
  | Stop
  deriving DecidableEq

/-- Reset a descriptor to the idle state: Offline with reference count 0. -/
def resetD (d : rproc) : rproc := { d with state := RState.Offline, count := 0 }

/-- Modelled from the spec: acquire (rproc_get, §4.4), whose implementation is
absent from the repository. Fast path when already Running with a live count;
otherwise parse the firmware, extract and negotiate resources, apply the
memory map table (skipped when it is empty), invoke start, and become Running
with count 1. Every failure resets the descriptor to Offline with count 0.
Returns the updated descriptor, the external calls made, and the error if any. -/
def rproc_get (env : RpEnv) (d : rproc) : rproc × List LcEvent × Option RpErr :=
  if 0 < d.count ∧ d.state = RState.Running then
    ({ d with count := d.count + 1 }, [], none)
  else
    match parseImage env.fwBytes with
    | Except.error e => (resetD d, [], some e)
    | Except.ok img =>
      match extractResources img.sections with
      | Except.error e => (resetD d, [], some e)
      | Except.ok entries =>
        match negotiate env initCtx entries with
        | Except.error e => (resetD d, [], some e)
        | Except.ok (_, ctx) =>
          let evs := (if d.memMaps = [] then [] else [LcEvent.ApplyMap d.memMaps]) ++
            [LcEvent.Start (effBoot ctx env.defaultBoot)]
          if env.startOk then
            ({ d with state := RState.Running, count := 1 }, evs, none)
          else
            (resetD d, evs, some RpErr.StartFailed)

/-- Modelled from the spec: release (rproc_put, §4.4), whose implementation is
absent from the repository. Decrements the reference count; at zero it invokes
the stop capability and goes Offline regardless of the stop result. A release
with count already 0 is rejected as a caller contract violation. -/
def rproc_put (env : RpEnv) (d : rproc) : rproc × List LcEvent × Option RpErr :=
  if d.count = 0 then (d, [], some RpErr.ReleaseUnderflow)
  else if d.count = 1 then
    ({ d with count := 0, state := RState.Offline }, [LcEvent.Stop],
      if env.stopOk then none else some RpErr.StopFailed)
  else
    ({ d with count := d.count - 1 }, [], none)

/-- Run `n` acquire calls in sequence, collecting the external calls. -/
def runGets (env : RpEnv) : Nat → rproc → rproc × List LcEvent
  | 0, d => (d, [])
  | n + 1, d =>
    let r := rproc_get env d
    let s := runGets env n r.1
    (s.1, r.2.1 ++ s.2)

/-- Run `n` release calls in sequence, collecting the external calls. -/
def runPuts (env : RpEnv) : Nat → rproc → rproc × List LcEvent
  | 0, d => (d, [])
  | n + 1, d =>
    let r := rproc_put env d
    let s := runPuts env n r.1
    (s.1, r.2.1 ++ s.2)

/-- Number of start-capability invocations in an event trace. -/
def countStart (evs : List LcEvent) : Nat :=
  evs.countP (fun e => match e with | LcEvent.Start _ => true | _ => false)

/-- Number of stop-capability invocations in an event trace. -/
def countStop (evs : List LcEvent) : Nat :=
  evs.countP (fun e => match e with | LcEvent.Stop => true | _ => false)

/-- Lookup in the registry's name-to-descriptor association list. -/
def regFind : List (String × rproc) → String → Option rproc
  | [], _ => none
  | (k, d) :: rest, n => if k = n then some d else regFind rest n

/-- Remove every binding of a name from the registry. -/
def regRemove : List (String × rproc) → String → List (String × rproc)
  | [], _ => []
  | (k, d) :: rest, n => if k = n then regRemove rest n else (k, d) :: regRemove rest n

/-- The descriptor a fresh registration inserts: Offline, reference count 0. -/
def mkDesc (name fw : String) (maps : List rproc_mem_entry) : rproc :=
  { name := name, firmware := fw, memMaps := maps, count := 0, state := RState.Offline }

/-- Modelled from the spec: rproc_register (§4.3), whose implementation is
absent from the repository. Fails with DuplicateName (registry unchanged) if
the name exists, else inserts a fresh Offline descriptor with count 0. -/
def rproc_register (reg : List (String × rproc)) (name fw : String)
    (maps : List rproc_mem_entry) : List (String × rproc) × Option RpErr :=
  match regFind reg name with
  | some _ => (reg, some RpErr.DuplicateName)
  | none => ((name, mkDesc name fw maps) :: reg, none)

/-- Modelled from the spec: rproc_unregister (§4.3), whose implementation is
absent from the repository. UnknownName if absent, InUse (registry unchanged)
if the reference count is non-zero, else removes the descriptor. -/
def rproc_unregister (reg : List (String × rproc)) (name : String) :
    List (String × rproc) × Option RpErr :=
  match regFind reg name with
  | none => (reg, some RpErr.UnknownName)
  | some d =>
    if d.count = 0 then (regRemove reg name, none)
    else (reg, some RpErr.InUse)

theorem parseImage_ok_elim {buf : List Nat} {img : fw_image}
    (h : parseImage buf = Except.ok img) :
    ∃ m r0 vb r1 hlb r2 hb r3 secs,
      readN 4 buf = some (m, r0) ∧ m = magicBytes ∧
      readN 4 r0 = some (vb, r1) ∧ readN 4 r1 = some (hlb, r2) ∧
      readN (decodeLE hlb) r2 = some (hb, r3) ∧
      parseSections r3.length r3 = Except.ok secs ∧
      img = { version := decodeLE vb, header := hb, sections := secs } := by
  unfold parseImage at h
  cases h0 : readN 4 buf with
  | none => rw [h0] at h; exact absurd h (by simp)
  | some p0 =>
    obtain ⟨m, r0⟩ := p0
    rw [h0] at h
    dsimp only at h
    by_cases hm : m = magicBytes
    · rw [if_pos hm] at h
      cases h1 : readN 4 r0 with
      | none => rw [h1] at h; exact absurd h (by simp)
      | some p1 =>
        obtain ⟨vb, r1⟩ := p1
        rw [h1] at h
        dsimp only at h
        cases h2 : readN 4 r1 with
        | none => rw [h2] at h; exact absurd h (by simp)
        | some p2 =>
          obtain ⟨hlb, r2⟩ := p2
          rw [h2] at h
          dsimp only at h
          cases h3 : readN (decodeLE hlb) r2 with
          | none => rw [h3] at h; exact absurd h (by simp)
          | some p3 =>
            obtain ⟨hb, r3⟩ := p3
            rw [h3] at h
            dsimp only at h
            cases h4 : parseSections r3.length r3 with
            | error e => rw [h4] at h; exact absurd h (by simp)
            | ok secs =>
              rw [h4] at h
              dsimp only at h
              injection h with h
              exact ⟨m, r0, vb, r1, hlb, r2, hb, r3, secs, rfl, hm, h1, h2, h3, h4, h.symm⟩
    · rw [if_neg hm] at h
      exact absurd h (by simp)

/-- C5: for every byte buffer the firmware parser accepts as well-formed,
re-serializing the parsed image (magic, version, header text, and the ordered
sections with their type, device address, length and content) reproduces the
original buffer byte for byte. -/
theorem parse_serialize_roundtrip (buf : List Nat) (img : fw_image)
    (h : parseImage buf = Except.ok img) (hbytes : ∀ x ∈ buf, x < 256) :
    serializeImage img = buf := by
  obtain ⟨m, r0, vb, r1, hlb, r2, hb, r3, secs, h0, hm, h1, h2, h3, h4, himg⟩ :=
    parseImage_ok_elim h
  obtain ⟨hmv, hr0, -, -⟩ := readN_eq_some h0
  obtain ⟨hvb, hr1, hvblen, -⟩ := readN_eq_some h1
  obtain ⟨hhlb, hr2, hhlblen, -⟩ := readN_eq_some h2
  obtain ⟨hhb, hr3, hhblen, -⟩ := readN_eq_some h3
  have hsub0 : ∀ x ∈ r0, x < 256 := fun x hx => List.drop_subset 4 buf (hr0 ▸ hx) |> hbytes x
  have hsub1 : ∀ x ∈ r1, x < 256 := fun x hx => List.drop_subset 4 r0 (hr1 ▸ hx) |> hsub0 x
  have hsub2 : ∀ x ∈ r2, x < 256 := fun x hx => List.drop_subset 4 r1 (hr2 ▸ hx) |> hsub1 x
  have hsub3 : ∀ x ∈ r3, x < 256 := fun x hx =>
    List.drop_subset (decodeLE hlb) r2 (hr3 ▸ hx) |> hsub2 x
  have hvb256 : ∀ x ∈ vb, x < 256 := fun x hx => List.take_subset 4 r0 (hvb ▸ hx) |> hsub0 x
  have hhlb256 : ∀ x ∈ hlb, x < 256 := fun x hx =>
    List.take_subset 4 r1 (hhlb ▸ hx) |> hsub1 x
  have evb : encodeLE 4 (decodeLE vb) = vb := by
    rw [← hvblen]; exact encodeLE_decodeLE vb hvb256
  have ehlb : encodeLE 4 hb.length = hlb := by
    rw [hhblen, ← hhlblen]; exact encodeLE_decodeLE hlb hhlb256
  have hsecs : serializeSections secs = r3 := parseSections_roundtrip r3.length r3 secs hsub3 h4
  have hl0 : m ++ r0 = buf := by rw [hmv, hr0]; exact List.take_append_drop 4 buf
  have hl1 : vb ++ r1 = r0 := by rw [hvb, hr1]; exact List.take_append_drop 4 r0
  have hl2 : hlb ++ r2 = r1 := by rw [hhlb, hr2]; exact List.take_append_drop 4 r1
  have hl3 : hb ++ r3 = r2 := by rw [hhb, hr3]; exact List.take_append_drop (decodeLE hlb) r2
  subst himg
  simp only [serializeImage, evb, ehlb, hsecs]
  rw [← hm, ← hl0, ← hl1, ← hl2, ← hl3]
  simp [List.append_assoc]

def bufRT : List Nat := [82, 80, 82, 67, 1, 0, 0, 0, 0, 0, 0, 0]

def imgRT : fw_image := { version := 1, header := [], sections := [] }

theorem parse_serialize_roundtrip_witness :
    parseImage bufRT = Except.ok imgRT ∧ (∀ x ∈ bufRT, x < 256) ∧
    serializeImage imgRT = bufRT :=
  ⟨by decide, by decide, parse_serialize_roundtrip bufRT imgRT (by decide) (by decide)⟩

theorem readN_append {k : Nat} {a : List Nat} (b : List Nat) (h : a.length = k) :
    readN k (a ++ b) = some (a, b) := by
  subst h
  unfold readN
  rw [if_pos (by simp)]
  rw [List.take_left, List.drop_left]

/-- C6: the firmware parser never reads past the end of the buffer: a declared
header length or a declared section length that exceeds the remaining bytes
makes parsing fail with TruncatedImage. -/
theorem parser_truncation_safe :
    (∀ (vb hlb rest : List Nat), vb.length = 4 → hlb.length = 4 →
      rest.length < decodeLE hlb →
      parseImage (magicBytes ++ (vb ++ (hlb ++ rest))) = Except.error RpErr.TruncatedImage) ∧
    (∀ (fuel : Nat) (tb db lb rest : List Nat), tb.length = 4 → db.length = 8 →
      lb.length = 4 → rest.length < decodeLE lb →
      parseSections (fuel + 1) (tb ++ (db ++ (lb ++ rest))) =
        Except.error RpErr.TruncatedImage) := by
  constructor
  · intro vb hlb rest hvb hhlb hlt
    unfold parseImage
    rw [readN_append (vb ++ (hlb ++ rest)) (by rfl)]
    dsimp only
    rw [if_pos rfl, readN_append (hlb ++ rest) hvb]
    dsimp only
    rw [readN_append rest hhlb]
    dsimp only
    rw [readN_none hlt]
  · intro fuel tb db lb rest htb hdb hlb hlt
    have hne : (tb ++ (db ++ (lb ++ rest))).isEmpty = false := by
      cases tb with
      | nil => simp at htb
      | cons a as => rfl
    unfold parseSections
    rw [hne]
    dsimp only
    rw [readN_append (db ++ (lb ++ rest)) htb]
    dsimp only
    rw [readN_append (lb ++ rest) hdb]
    dsimp only
    rw [readN_append rest hlb]
    dsimp only
    rw [readN_none hlt]
    rfl

theorem parser_truncation_safe_witness :
    ([] : List Nat).length < decodeLE [1, 0, 0, 0] ∧
    parseImage (magicBytes ++ ([0, 0, 0, 0] ++ ([1, 0, 0, 0] ++ []))) =
      Except.error RpErr.TruncatedImage ∧
    parseSections 1 ([0, 0, 0, 0] ++ ([0, 0, 0, 0, 0, 0, 0, 0] ++ ([1, 0, 0, 0] ++ []))) =
      Except.error RpErr.TruncatedImage :=
  ⟨by decide,
    parser_truncation_safe.1 [0, 0, 0, 0] [1, 0, 0, 0] [] (by decide) (by decide) (by decide),
    parser_truncation_safe.2 0 [0, 0, 0, 0] [0, 0, 0, 0, 0, 0, 0, 0] [1, 0, 0, 0] []
      (by decide) (by decide) (by decide) (by decide)⟩

theorem parseResChunks_length :
    ∀ (k fuel : Nat) (l : List Nat), l.length = RSC_ENTRY_SIZE * k →
      RSC_ENTRY_SIZE * k ≤ fuel → (parseResChunks fuel l).length = k := by
  intro k
  induction k with
  | zero =>
    intro fuel l hl _
    have : l = [] := List.eq_nil_of_length_eq_zero (by simpa using hl)
    subst this
    unfold parseResChunks
    simp
  | succ k ih =>
    intro fuel l hl hf
    simp only [RSC_ENTRY_SIZE] at hl hf
    cases l with
    | nil => simp at hl
    | cons a as =>
      cases fuel with
      | zero => omega
      | succ f =>
        unfold parseResChunks
        simp only [List.isEmpty_cons, Bool.false_eq_true, if_false]
        have hdrop : ((a :: as).drop RSC_ENTRY_SIZE).length = RSC_ENTRY_SIZE * k := by
          simp only [List.length_drop, RSC_ENTRY_SIZE]
          omega
        have hfk : RSC_ENTRY_SIZE * k ≤ f := by
          simp only [RSC_ENTRY_SIZE]
          omega
        simp only [List.length_cons, ih f _ hdrop hfk]

/-- C7: a resource section whose byte length is not a multiple of the fixed
76-byte entry size fails with MalformedResourceSection; otherwise it decodes
as exactly length / 76 packed resource entries. -/
theorem resource_entry_size_check (l : List Nat) :
    (¬ RSC_ENTRY_SIZE ∣ l.length →
      parseResEntries l = Except.error RpErr.MalformedResourceSection) ∧
    (RSC_ENTRY_SIZE ∣ l.length →
      ∃ es, parseResEntries l = Except.ok es ∧ es.length = l.length / RSC_ENTRY_SIZE) := by
  constructor
  · intro h
    rw [Nat.dvd_iff_mod_eq_zero] at h
    unfold parseResEntries
    rw [if_neg h]
  · intro h
    obtain ⟨k, hk⟩ := h
    refine ⟨parseResChunks l.length l, ?_, ?_⟩
    · unfold parseResEntries
      rw [if_pos (by rw [hk]; exact Nat.mul_mod_right _ _)]
    · rw [parseResChunks_length k l.length l hk (le_of_eq hk.symm), hk,
        Nat.mul_div_cancel_left k (by norm_num [RSC_ENTRY_SIZE] : 0 < RSC_ENTRY_SIZE)]

theorem resource_entry_size_check_witness :
    ¬ RSC_ENTRY_SIZE ∣ ([0] : List Nat).length ∧
    parseResEntries [0] = Except.error RpErr.MalformedResourceSection ∧
    RSC_ENTRY_SIZE ∣ (List.replicate 76 (0 : Nat)).length ∧
    (∃ es, parseResEntries (List.replicate 76 (0 : Nat)) = Except.ok es ∧
      es.length = (List.replicate 76 (0 : Nat)).length / RSC_ENTRY_SIZE) :=
  ⟨by decide, (resource_entry_size_check [0]).1 (by decide), by decide,
    (resource_entry_size_check (List.replicate 76 (0 : Nat))).2 (by decide)⟩

theorem rproc_get_running (env : RpEnv) (d : rproc)
    (hc : 0 < d.count) (hs : d.state = RState.Running) :
    rproc_get env d = ({ d with count := d.count + 1 }, [], none) := by
  unfold rproc_get
  rw [if_pos (show 0 < d.count ∧ d.state = RState.Running from ⟨hc, hs⟩)]

/-- C2: when the reference count is positive and the state is Running, acquire
takes the idempotent fast path: it increments the count and returns the same
handle, makes no external calls (no reload, no negotiation, no second start),
and its result does not depend on the firmware environment at all. -/
theorem get_fast_path (env : RpEnv) (d : rproc)
    (hc : 0 < d.count) (hs : d.state = RState.Running) :
    rproc_get env d = ({ d with count := d.count + 1 }, [], none) ∧
    (∀ env2 : RpEnv, rproc_get env2 d = rproc_get env d) := by
  refine ⟨rproc_get_running env d hc hs, fun env2 => ?_⟩
  rw [rproc_get_running env d hc hs, rproc_get_running env2 d hc hs]

def dRun : rproc :=
  { name := "ipu", firmware := "ipu-fw", memMaps := [], count := 1, state := RState.Running }

def env0 : RpEnv :=
  { fwBytes := bufRT, alloc := fun _ => none, strict := false, defaultBoot := none,
    startOk := true, stopOk := true }

theorem get_fast_path_witness :
    0 < dRun.count ∧ dRun.state = RState.Running ∧
    rproc_get env0 dRun = ({ dRun with count := dRun.count + 1 }, [], none) :=
  ⟨by decide, rfl, (get_fast_path env0 dRun (by decide) rfl).1⟩

theorem resetD_self {d : rproc} (hs : d.state = RState.Offline) (hc : d.count = 0) :
    resetD d = d := by
  cases d
  simp_all [resetD]

/-- C3: an acquire that fails during firmware parsing or resource negotiation
(any failure other than the start capability failing) leaves the descriptor
exactly as it was: Offline with reference count 0, with no external call made
(no partial resource or memory-map state). -/
theorem get_failure_atomic (env : RpEnv) (d d' : rproc) (ev : List LcEvent) (e : RpErr)
    (hs : d.state = RState.Offline) (hc : d.count = 0)
    (h : rproc_get env d = (d', ev, some e)) (hne : e ≠ RpErr.StartFailed) :
    d' = d ∧ d'.state = RState.Offline ∧ d'.count = 0 ∧ ev = [] := by
  have hfast : ¬ (0 < d.count ∧ d.state = RState.Running) := by
    rintro ⟨h1, -⟩
    omega
  unfold rproc_get at h
  rw [if_neg hfast] at h
  have hdone : d' = resetD d ∧ ev = [] := by
    cases hp : parseImage env.fwBytes with
    | error e1 =>
      rw [hp] at h
      simp only [Prod.mk.injEq] at h
      exact ⟨h.1.symm, h.2.1.symm⟩
    | ok img =>
      rw [hp] at h
      dsimp only at h
      cases hx : extractResources img.sections with
      | error e1 =>
        rw [hx] at h
        simp only [Prod.mk.injEq] at h
        exact ⟨h.1.symm, h.2.1.symm⟩
      | ok entries =>
        rw [hx] at h
        dsimp only at h
        cases hn : negotiate env initCtx entries with
        | error e1 =>
          rw [hn] at h
          simp only [Prod.mk.injEq] at h
          exact ⟨h.1.symm, h.2.1.symm⟩
        | ok p =>
          obtain ⟨out, ctx⟩ := p
          rw [hn] at h
          dsimp only at h
          by_cases hst : env.startOk = true
          · rw [if_pos hst] at h
            simp only [Prod.mk.injEq] at h
            exact absurd h.2.2 (by simp)
          · rw [if_neg hst] at h
            simp only [Prod.mk.injEq] at h
            injection h.2.2 with h2
            exact absurd h2.symm hne
  obtain ⟨hd, hev⟩ := hdone
  rw [hd, resetD_self hs hc]
  exact ⟨rfl, hs, hc, hev⟩

def dOff : rproc :=
  { name := "ipu", firmware := "ipu-fw", memMaps := [], count := 0, state := RState.Offline }

def envBad : RpEnv := { env0 with fwBytes := [] }

theorem get_failure_atomic_witness :
    dOff.state = RState.Offline ∧ dOff.count = 0 ∧
    rproc_get envBad dOff = (dOff, [], some RpErr.TruncatedImage) ∧
    (dOff = dOff ∧ dOff.state = RState.Offline ∧ dOff.count = 0 ∧ ([] : List LcEvent) = []) :=
  ⟨rfl, rfl, by decide,
    get_failure_atomic envBad dOff dOff [] RpErr.TruncatedImage rfl rfl (by decide) (by decide)⟩

theorem regFind_regRemove (reg : List (String × rproc)) (n : String) :
    regFind (regRemove reg n) n = none := by
  induction reg with
  | nil => rfl
  | cons p rest ih =>
    obtain ⟨k, d⟩ := p
    unfold regRemove
    by_cases hk : k = n
    · rw [if_pos hk]
      exact ih
    · rw [if_neg hk]
      unfold regFind
      rw [if_neg hk]
      exact ih

/-- C9: register fails with DuplicateName on an existing name leaving the
registry unchanged, else inserts an Offline descriptor with count 0;
unregister fails with UnknownName when absent, fails with InUse (registry
unchanged) when the count is non-zero, and otherwise removes the descriptor. -/
theorem registry_contract :
    (∀ (reg : List (String × rproc)) (n fw : String) (maps : List rproc_mem_entry)
      (d : rproc), regFind reg n = some d →
      rproc_register reg n fw maps = (reg, some RpErr.DuplicateName)) ∧
    (∀ (reg : List (String × rproc)) (n fw : String) (maps : List rproc_mem_entry),
      regFind reg n = none →
      rproc_register reg n fw maps = ((n, mkDesc n fw maps) :: reg, none) ∧
      (mkDesc n fw maps).state = RState.Offline ∧ (mkDesc n fw maps).count = 0) ∧
    (∀ (reg : List (String × rproc)) (n : String), regFind reg n = none →
      rproc_unregister reg n = (reg, some RpErr.UnknownName)) ∧
    (∀ (reg : List (String × rproc)) (n : String) (d : rproc),
      regFind reg n = some d → d.count ≠ 0 →
      rproc_unregister reg n = (reg, some RpErr.InUse)) ∧
    (∀ (reg : List (String × rproc)) (n : String) (d : rproc),
      regFind reg n = some d → d.count = 0 →
      rproc_unregister reg n = (regRemove reg n, none) ∧
      regFind (regRemove reg n) n = none) := by
  refine ⟨?_, ?_, ?_, ?_, ?_⟩
  · intro reg n fw maps d h
    unfold rproc_register
    rw [h]
  · intro reg n fw maps h
    unfold rproc_register
    rw [h]
    exact ⟨rfl, rfl, rfl⟩
  · intro reg n h
    unfold rproc_unregister
    rw [h]
  · intro reg n d h hc
    unfold rproc_unregister
    rw [h]
    dsimp only
    rw [if_neg hc]
  · intro reg n d h hc
    unfold rproc_unregister
    rw [h]
    dsimp only
    rw [if_pos hc]
    exact ⟨rfl, regFind_regRemove reg n⟩

def reg1 : List (String × rproc) := [("ipu", dRun)]

theorem registry_contract_witness :
    regFind reg1 "ipu" = some dRun ∧
    rproc_register reg1 "ipu" "ipu-fw" [] = (reg1, some RpErr.DuplicateName) ∧
    dRun.count ≠ 0 ∧
    rproc_unregister reg1 "ipu" = (reg1, some RpErr.InUse) :=
  ⟨by decide, registry_contract.1 reg1 "ipu" "ipu-fw" [] dRun (by decide), by decide,
    registry_contract.2.2.2.1 reg1 "ipu" dRun (by decide) (by decide)⟩

theorem rproc_get_shape (env : RpEnv) (d : rproc)
    (hfast : ¬ (0 < d.count ∧ d.state = RState.Running)) :
    (∃ e, rproc_get env d = (resetD d, [], some e)) ∨
    (∃ ba, rproc_get env d = (resetD d,
      (if d.memMaps = [] then [] else [LcEvent.ApplyMap d.memMaps]) ++ [LcEvent.Start ba],
      some RpErr.StartFailed)) ∨
    (∃ ba, rproc_get env d =
      ({ d with state := RState.Running, count := 1 },
        (if d.memMaps = [] then [] else [LcEvent.ApplyMap d.memMaps]) ++ [LcEvent.Start ba],
        none)) := by
  unfold rproc_get
  rw [if_neg hfast]
  cases parseImage env.fwBytes with
  | error e => exact Or.inl ⟨e, rfl⟩
  | ok img =>
    dsimp only
    cases extractResources img.sections with
    | error e => exact Or.inl ⟨e, rfl⟩
    | ok entries =>
      dsimp only
      cases negotiate env initCtx entries with
      | error e => exact Or.inl ⟨e, rfl⟩
      | ok p =>
        obtain ⟨out, ctx⟩ := p
        dsimp only
        by_cases hst : env.startOk = true
        · rw [if_pos hst]
          exact Or.inr (Or.inr ⟨effBoot ctx env.defaultBoot, rfl⟩)
        · rw [if_neg hst]
          exact Or.inr (Or.inl ⟨effBoot ctx env.defaultBoot, rfl⟩)

theorem rproc_get_success (env : RpEnv) (d : rproc)
    (hs : d.state = RState.Offline) (hok : (rproc_get env d).2.2 = none) :
    ∃ ba, rproc_get env d =
      ({ d with state := RState.Running, count := 1 },
        (if d.memMaps = [] then [] else [LcEvent.ApplyMap d.memMaps]) ++ [LcEvent.Start ba],
        none) := by
  have hfast : ¬ (0 < d.count ∧ d.state = RState.Running) := by
    rintro ⟨-, hr⟩
    rw [hs] at hr
    exact absurd hr (by simp)
  rcases rproc_get_shape env d hfast with ⟨e, heq⟩ | ⟨ba, heq⟩ | ⟨ba, heq⟩
  · rw [heq] at hok
    exact absurd hok (by simp)
  · rw [heq] at hok
    exact absurd hok (by simp)
  · exact ⟨ba, heq⟩

/-- C10: registering with an empty memory map table succeeds on a fresh name,
and a subsequent successful acquire on that descriptor skips the memory-map
application step while still invoking the start capability. -/
theorem register_no_memmap (reg : List (String × rproc)) (n fw : String)
    (hfresh : regFind reg n = none) :
    rproc_register reg n fw [] = ((n, mkDesc n fw []) :: reg, none) ∧
    (∀ env : RpEnv, (rproc_get env (mkDesc n fw [])).2.2 = none →
      (∀ maps, LcEvent.ApplyMap maps ∉ (rproc_get env (mkDesc n fw [])).2.1) ∧
      (∃ ba, (rproc_get env (mkDesc n fw [])).2.1 = [LcEvent.Start ba])) := by
  constructor
  · unfold rproc_register
    rw [hfresh]
  · intro env hok
    obtain ⟨ba, hget⟩ := rproc_get_success env (mkDesc n fw []) rfl hok
    have hev : (rproc_get env (mkDesc n fw [])).2.1 = [LcEvent.Start ba] := by
      rw [hget]
      rfl
    refine ⟨fun maps hmem => ?_, ⟨ba, hev⟩⟩
    rw [hev] at hmem
    simp at hmem

theorem register_no_memmap_witness :
    regFind [] "ipu" = none ∧
    rproc_register [] "ipu" "ipu-fw" [] = (("ipu", mkDesc "ipu" "ipu-fw" []) :: [], none) ∧
    (rproc_get env0 (mkDesc "ipu" "ipu-fw" [])).2.2 = none ∧
    LcEvent.ApplyMap [] ∉ (rproc_get env0 (mkDesc "ipu" "ipu-fw" [])).2.1 ∧
    (∃ ba, (rproc_get env0 (mkDesc "ipu" "ipu-fw" [])).2.1 = [LcEvent.Start ba]) :=
  ⟨rfl, (register_no_memmap [] "ipu" "ipu-fw" rfl).1, by decide,
    ((register_no_memmap [] "ipu" "ipu-fw" rfl).2 env0 (by decide)).1 [],
    ((register_no_memmap [] "ipu" "ipu-fw" rfl).2 env0 (by decide)).2⟩

/-- Whether a resource entry is a BOOTADDR announcement. -/
def isBootEntry (e : fw_resource) : Bool := e.type == RSC_BOOTADDR

/-- The boot address after processing `entries` starting from `cur`:
the current one if already set, else the first BOOTADDR entry's da. -/
def firstBoot (cur : Option Nat) (entries : List fw_resource) : Option Nat :=
  match cur with
  | some b => some b
  | none => (entries.find? isBootEntry).map fw_resource.da

theorem negotiate_ok_aux :
    ∀ (entries : List fw_resource) (env : RpEnv) (ctx : BootCtx) (out : List fw_resource)
      (ctx' : BootCtx), negotiate env ctx entries = Except.ok (out, ctx') →
      ctx'.boot = firstBoot ctx.boot entries ∧
      out.length = entries.length ∧
      (∀ p ∈ entries.zip out, p.1.type = RSC_DEVMEM →
        ∃ id, env.alloc p.1.name = some id ∧ p.2.pa = id) := by
  intro entries
  induction entries with
  | nil =>
    intro env ctx out ctx' h
    unfold negotiate at h
    simp only [Except.ok.injEq, Prod.mk.injEq] at h
    obtain ⟨hout, hctx⟩ := h
    subst hout
    subst hctx
    refine ⟨?_, rfl, by simp⟩
    cases hcb : ctx.boot <;> simp [firstBoot, hcb]
  | cons e rest ih =>
    intro env ctx out ctx' h
    unfold negotiate at h
    cases hstep : negoStep env ctx e with
    | error err => rw [hstep] at h; exact absurd h (by simp)
    | ok p =>
      obtain ⟨ctx1, e1⟩ := p
      rw [hstep] at h
      dsimp only at h
      cases hrec : negotiate env ctx1 rest with
      | error err => rw [hrec] at h; exact absurd h (by simp)
      | ok q =>
        obtain ⟨out1, ctx2⟩ := q
        rw [hrec] at h
        dsimp only at h
        simp only [Except.ok.injEq, Prod.mk.injEq] at h
        obtain ⟨hout, hctx⟩ := h
        subst hout
        subst hctx
        obtain ⟨ihboot, ihlen, ihzip⟩ := ih env ctx1 out1 ctx2 hrec
        unfold negoStep at hstep
        by_cases h0 : e.type = RSC_TRACE
        · rw [if_pos h0] at hstep
          simp only [Except.ok.injEq, Prod.mk.injEq] at hstep
          obtain ⟨hc1, he1⟩ := hstep
          have hbe : isBootEntry e = false := by
            simp [isBootEntry, h0, RSC_TRACE, RSC_BOOTADDR]
          have hfind : List.find? isBootEntry (e :: rest) = List.find? isBootEntry rest :=
            List.find?_cons_of_neg _ (by simp [hbe])
          have hboot1 : ctx1.boot = ctx.boot := by rw [← hc1]
          refine ⟨?_, by simp [ihlen], ?_⟩
          · rw [ihboot, hboot1]
            cases hcb : ctx.boot <;> simp [firstBoot, hcb, hfind]
          · intro p hp
            rw [List.zip_cons_cons] at hp
            rcases List.mem_cons.mp hp with rfl | hp'
            · intro hdev
              rw [h0] at hdev
              exact absurd hdev (by decide)
            · exact ihzip p hp'
        · rw [if_neg h0] at hstep
          by_cases h1 : e.type = RSC_BOOTADDR
          · rw [if_pos h1] at hstep
            have hbe : isBootEntry e = true := by simp [isBootEntry, h1]
            have hfind : List.find? isBootEntry (e :: rest) = some e :=
              List.find?_cons_of_pos _ hbe
            cases hcb : ctx.boot with
            | some b =>
              rw [hcb] at hstep
              dsimp only at hstep
              simp only [Except.ok.injEq, Prod.mk.injEq] at hstep
              obtain ⟨hc1, he1⟩ := hstep
              refine ⟨?_, by simp [ihlen], ?_⟩
              · rw [ihboot, ← hc1, hcb]
                simp [firstBoot]
              · intro p hp
                rw [List.zip_cons_cons] at hp
                rcases List.mem_cons.mp hp with rfl | hp'
                · intro hdev
                  rw [h1] at hdev
                  exact absurd hdev (by decide)
                · exact ihzip p hp'
            | none =>
              rw [hcb] at hstep
              dsimp only at hstep
              simp only [Except.ok.injEq, Prod.mk.injEq] at hstep
              obtain ⟨hc1, he1⟩ := hstep
              refine ⟨?_, by simp [ihlen], ?_⟩
              · rw [ihboot, ← hc1]
                simp [firstBoot, hcb, hfind]
              · intro p hp
                rw [List.zip_cons_cons] at hp
                rcases List.mem_cons.mp hp with rfl | hp'
                · intro hdev
                  rw [h1] at hdev
                  exact absurd hdev (by decide)
                · exact ihzip p hp'
          · rw [if_neg h1] at hstep
            have hbe : isBootEntry e = false := by simp [isBootEntry, h1]
            have hfind : List.find? isBootEntry (e :: rest) = List.find? isBootEntry rest :=
              List.find?_cons_of_neg _ (by simp [hbe])
            by_cases h2 : e.type = RSC_DEVMEM
            · rw [if_pos h2] at hstep
              cases halloc : env.alloc e.name with
              | none =>
                rw [halloc] at hstep
                exact absurd hstep (by simp)
              | some id =>
                rw [halloc] at hstep
                dsimp only at hstep
                simp only [Except.ok.injEq, Prod.mk.injEq] at hstep
                obtain ⟨hc1, he1⟩ := hstep
                refine ⟨?_, by simp [ihlen], ?_⟩
                · rw [ihboot, ← hc1]
                  cases hcb : ctx.boot <;> simp [firstBoot, hcb, hfind]
                · intro p hp
                  rw [List.zip_cons_cons] at hp
                  rcases List.mem_cons.mp hp with rfl | hp'
                  · intro hdev
                    exact ⟨id, halloc, by rw [← he1]⟩
                  · exact ihzip p hp'
            · rw [if_neg h2] at hstep
              by_cases h3 : env.strict = true
              · rw [if_pos h3] at hstep
                exact absurd hstep (by simp)
              · rw [if_neg h3] at hstep
                simp only [Except.ok.injEq, Prod.mk.injEq] at hstep
                obtain ⟨hc1, he1⟩ := hstep
                refine ⟨?_, by simp [ihlen], ?_⟩
                · rw [ihboot, ← hc1]
                  cases hcb : ctx.boot <;> simp [firstBoot, hcb, hfind]
                · intro p hp
                  rw [List.zip_cons_cons] at hp
                  rcases List.mem_cons.mp hp with rfl | hp'
                  · intro hdev
                    exact absurd hdev h2
                  · exact ihzip p hp'

/-- C8: the boot address recorded for the start capability is the device
address of the first BOOTADDR entry in entry order (later ones are ignored),
and the caller-supplied default when no BOOTADDR entry is present. -/
theorem bootaddr_first_wins (env : RpEnv) (entries out : List fw_resource) (ctx : BootCtx)
    (h : negotiate env initCtx entries = Except.ok (out, ctx)) :
    (∀ e, entries.find? isBootEntry = some e →
      effBoot ctx env.defaultBoot = some e.da) ∧
    (entries.find? isBootEntry = none →
      effBoot ctx env.defaultBoot = env.defaultBoot) := by
  have hb := (negotiate_ok_aux entries env initCtx out ctx h).1
  constructor
  · intro e hf
    unfold effBoot
    rw [hb]
    simp [firstBoot, initCtx, hf]
  · intro hf
    unfold effBoot
    rw [hb]
    simp [firstBoot, initCtx, hf]

def bootE : fw_resource :=
  { type := RSC_BOOTADDR, da := 4096, pa := 0, len := 0, flags := 0, name := [] }

def ctxBoot : BootCtx := { boot := some 4096, traces := [] }

theorem bootaddr_first_wins_witness :
    negotiate env0 initCtx [bootE] = Except.ok ([bootE], ctxBoot) ∧
    [bootE].find? isBootEntry = some bootE ∧
    effBoot ctxBoot env0.defaultBoot = some bootE.da :=
  ⟨by decide, by decide,
    (bootaddr_first_wins env0 [bootE] [bootE] ctxBoot (by decide)).1 bootE (by decide)⟩

/-- C4: for every allocation-request (two-way) entry the negotiator writes the
allocated identifier into that entry's physical-address field (its output is
positionally aligned with its input), and when the allocation cannot be
satisfied the acquire fails with ResourceUnavailable, the processor staying
Offline with no external call made. -/
theorem alloc_writeback_and_failure :
    (∀ (env : RpEnv) (ctx : BootCtx) (entries out : List fw_resource) (ctx' : BootCtx),
      negotiate env ctx entries = Except.ok (out, ctx') →
      out.length = entries.length ∧
      (∀ p ∈ entries.zip out, p.1.type = RSC_DEVMEM →
        ∃ id, env.alloc p.1.name = some id ∧ p.2.pa = id)) ∧
    (∀ (env : RpEnv) (d : rproc) (img : fw_image) (entries : List fw_resource)
      (nm : List Nat), d.state = RState.Offline →
      parseImage env.fwBytes = Except.ok img →
      extractResources img.sections = Except.ok entries →
      negotiate env initCtx entries = Except.error (RpErr.ResourceUnavailable nm) →
      rproc_get env d = ({ d with state := RState.Offline, count := 0 }, [],
        some (RpErr.ResourceUnavailable nm))) := by
  constructor
  · intro env ctx entries out ctx' h
    obtain ⟨-, hlen, hzip⟩ := negotiate_ok_aux entries env ctx out ctx' h
    exact ⟨hlen, hzip⟩
  · intro env d img entries nm hs hp hx hn
    have hfast : ¬ (0 < d.count ∧ d.state = RState.Running) := by
      rintro ⟨-, hr⟩
      rw [hs] at hr
      exact absurd hr (by simp)
    unfold rproc_get
    rw [if_neg hfast, hp]
    dsimp only
    rw [hx]
    dsimp only
    rw [hn]
    rfl

def devContent : List Nat :=
  [2, 0, 0, 0] ++ List.replicate 8 0 ++ List.replicate 8 0 ++ List.replicate 4 0 ++
    List.replicate 4 0 ++ List.replicate 48 0

def devE : fw_resource :=
  { type := RSC_DEVMEM, da := 0, pa := 0, len := 0, flags := 0,
    name := List.replicate 48 0 }

def devE42 : fw_resource := { devE with pa := 42 }

def bufDev : List Nat :=
  magicBytes ++ [1, 0, 0, 0] ++ [0, 0, 0, 0] ++
    ([0, 0, 0, 0] ++ List.replicate 8 0 ++ [76, 0, 0, 0] ++ devContent)

def imgDev : fw_image :=
  { version := 1, header := [],
    sections := [{ type := FW_RESOURCE, da := 0, content := devContent }] }

def envAlloc : RpEnv := { env0 with alloc := fun _ => some 42, fwBytes := bufDev }

def envFail : RpEnv := { envAlloc with alloc := fun _ => none }

theorem alloc_writeback_and_failure_witness :
    negotiate envAlloc initCtx [devE] = Except.ok ([devE42], initCtx) ∧
    ([devE42].length = [devE].length ∧
      (∀ p ∈ [devE].zip [devE42], p.1.type = RSC_DEVMEM →
        ∃ id, envAlloc.alloc p.1.name = some id ∧ p.2.pa = id)) ∧
    dOff.state = RState.Offline ∧
    rproc_get envFail dOff =
      ({ dOff with state := RState.Offline, count := 0 }, [],
        some (RpErr.ResourceUnavailable devE.name)) :=
  ⟨by decide,
    alloc_writeback_and_failure.1 envAlloc initCtx [devE] [devE42] initCtx (by decide),
    rfl,
    alloc_writeback_and_failure.2 envFail dOff imgDev [devE] devE.name rfl (by decide)
      (by decide) (by decide)⟩

theorem runGets_fast (env : RpEnv) :
    ∀ (n : Nat) (d : rproc), d.state = RState.Running → 0 < d.count →
      runGets env n d = ({ d with count := d.count + n }, []) := by
  intro n
  induction n with
  | zero =>
    intro d hs hc
    unfold runGets
    rfl
  | succ n ih =>
    intro n' hs hc
    unfold runGets
    rw [rproc_get_running env n' hc hs]
    dsimp only
    rw [ih { n' with count := n'.count + 1 } hs (show 0 < n'.count + 1 by omega)]
    have hcnt : n'.count + 1 + n = n'.count + (n + 1) := by omega
    dsimp only
    rw [hcnt]
    rfl

theorem rproc_put_dec (env : RpEnv) (d : rproc) (hc : 2 ≤ d.count) :
    rproc_put env d = ({ d with count := d.count - 1 }, [], none) := by
  unfold rproc_put
  rw [if_neg (by omega), if_neg (by omega)]

theorem rproc_put_last (env : RpEnv) (d : rproc) (hc : d.count = 1) :
    rproc_put env d = ({ d with count := 0, state := RState.Offline }, [LcEvent.Stop],
      if env.stopOk then none else some RpErr.StopFailed) := by
  unfold rproc_put
  rw [if_neg (by omega), if_pos hc]

theorem runPuts_dec (env : RpEnv) :
    ∀ (n : Nat) (d : rproc), n < d.count →
      runPuts env n d = ({ d with count := d.count - n }, []) := by
  intro n
  induction n with
  | zero =>
    intro d h
    unfold runPuts
    rfl
  | succ n ih =>
    intro d h
    unfold runPuts
    rw [rproc_put_dec env d (by omega)]
    dsimp only
    rw [ih { d with count := d.count - 1 } (show n < d.count - 1 by omega)]
    have hcnt : d.count - 1 - n = d.count - (n + 1) := by omega
    dsimp only
    rw [hcnt]
    rfl

theorem runPuts_exact (env : RpEnv) :
    ∀ (n : Nat) (d : rproc), d.count = n + 1 →
      runPuts env (n + 1) d =
        ({ d with count := 0, state := RState.Offline }, [LcEvent.Stop]) := by
  intro n
  induction n with
  | zero =>
    intro d hc
    unfold runPuts
    rw [rproc_put_last env d hc]
    dsimp only
    unfold runPuts
    simp
  | succ n ih =>
    intro d hc
    unfold runPuts
    rw [rproc_put_dec env d (by omega)]
    dsimp only
    rw [ih { d with count := d.count - 1 } (show d.count - 1 = n + 1 by omega)]
    rfl

/-- C1: starting Offline with count 0, any sequence of N acquires followed by
N releases invokes the start capability exactly once and the stop capability
exactly once, and the stop happens only at the N-th release: the first N-1
releases make no external calls, the N-th emits exactly the stop call. -/
theorem get_put_start_stop_once (env : RpEnv) (d0 : rproc) (N : Nat) (hN : 1 ≤ N)
    (hs : d0.state = RState.Offline) (hc : d0.count = 0)
    (hok : (rproc_get env d0).2.2 = none) :
    countStart ((runGets env N d0).2 ++ (runPuts env N (runGets env N d0).1).2) = 1 ∧
    countStop ((runGets env N d0).2 ++ (runPuts env N (runGets env N d0).1).2) = 1 ∧
    (runPuts env (N - 1) (runGets env N d0).1).2 = [] ∧
    (runPuts env N (runGets env N d0).1).2 = [LcEvent.Stop] := by
  obtain ⟨M, rfl⟩ : ∃ M, N = M + 1 := ⟨N - 1, by omega⟩
  obtain ⟨ba, hget⟩ := rproc_get_success env d0 hs hok
  have hA : runGets env (M + 1) d0 =
      ({ d0 with state := RState.Running, count := 1 + M },
        (if d0.memMaps = [] then [] else [LcEvent.ApplyMap d0.memMaps]) ++
          [LcEvent.Start ba]) := by
    unfold runGets
    rw [hget]
    dsimp only
    rw [runGets_fast env M { d0 with state := RState.Running, count := 1 } rfl
      (show (0 : Nat) < 1 by omega)]
    simp
  have hC : runPuts env (M + 1) (runGets env (M + 1) d0).1 =
      ({ d0 with count := 0, state := RState.Offline }, [LcEvent.Stop]) := by
    rw [hA]
    exact runPuts_exact env M _ (show 1 + M = M + 1 by omega)
  have hB : runPuts env M (runGets env (M + 1) d0).1 =
      ({ d0 with state := RState.Running, count := 1 + M - M }, []) := by
    rw [hA]
    exact runPuts_dec env M _ (show M < 1 + M by omega)
  refine ⟨?_, ?_, ?_, ?_⟩
  · rw [hC, hA]
    by_cases hmm : d0.memMaps = [] <;>
      simp [hmm, countStart, List.countP_cons, List.countP_nil]
  · rw [hC, hA]
    by_cases hmm : d0.memMaps = [] <;>
      simp [hmm, countStop, List.countP_cons, List.countP_nil]
  · simp only [Nat.add_sub_cancel]
    rw [hB]
  · rw [hC]

theorem get_put_start_stop_once_witness :
    (1 ≤ 2) ∧ dOff.state = RState.Offline ∧ dOff.count = 0 ∧
    (rproc_get env0 dOff).2.2 = none ∧
    (countStart ((runGets env0 2 dOff).2 ++ (runPuts env0 2 (runGets env0 2 dOff).1).2) = 1 ∧
      countStop ((runGets env0 2 dOff).2 ++ (runPuts env0 2 (runGets env0 2 dOff).1).2) = 1 ∧
      (runPuts env0 (2 - 1) (runGets env0 2 dOff).1).2 = [] ∧
      (runPuts env0 2 (runGets env0 2 dOff).1).2 = [LcEvent.Stop]) :=
  ⟨by decide, rfl, rfl, by decide,
    get_put_start_stop_once env0 dOff 2 (by decide) rfl rfl (by decide)⟩
